import Mathlib

/-!
# Verification of the segmap range-map library

Shallow embedding of the `segmap` crate: the bound model, the `Range`
type (`src/range.rs`), the gap iterators (`src/map/iterators.rs`) and the
mutation engine described by the specification.  Keys are embedded as
integers; values are an arbitrary type with decidable equality.

The bound-order helpers (`StartBound`/`EndBound` orders, `before`/`after`)
and the insert/remove algorithms live in files of the repository that are
not part of the sources given here; those definitions are modelled from
the specification and are marked as such in their doc comments.
-/

namespace SegMap

/-- Totally ordered line used to reason about bound positions: integers
together with a least element (an unbounded start) and a greatest element
(an unbounded end).  Proof infrastructure, not part of the embedding. -/
inductive LB where
  | bot : LB
  | fin (x : ℤ) : LB
  | top : LB
deriving DecidableEq, Repr

/-- Boolean order on `LB`. -/
def LB.ble : LB → LB → Bool
  | .bot, _ => true
  | _, .top => true
  | .fin x, .fin y => decide (x ≤ y)
  | _, _ => false

instance : LinearOrder LB where
  le a b := LB.ble a b = true
  le_refl a := by cases a <;> simp [LB.ble]
  le_trans a b c := by
    cases a <;> cases b <;> cases c <;> simp [LB.ble] <;> omega
  le_antisymm a b := by
    cases a <;> cases b <;> simp [LB.ble] <;> omega
  le_total a b := by
    cases a <;> cases b <;> simp [LB.ble] <;> omega
  decidableLE a b := inferInstanceAs (Decidable (LB.ble a b = true))

@[simp] theorem LB.bot_le' (a : LB) : LB.bot ≤ a := by
  cases a <;> simp [(· ≤ ·), LB.ble]

@[simp] theorem LB.le_top' (a : LB) : a ≤ LB.top := by
  cases a <;> simp [(· ≤ ·), LB.ble]

@[simp] theorem LB.fin_le_fin {x y : ℤ} : LB.fin x ≤ LB.fin y ↔ x ≤ y := by
  simp [(· ≤ ·), LB.ble]

@[simp] theorem LB.not_top_le_fin {x : ℤ} : ¬ (LB.top ≤ LB.fin x) := by
  simp [(· ≤ ·), LB.ble]

@[simp] theorem LB.not_top_le_bot : ¬ (LB.top ≤ LB.bot) := by
  simp [(· ≤ ·), LB.ble]

@[simp] theorem LB.not_fin_le_bot {x : ℤ} : ¬ (LB.fin x ≤ LB.bot) := by
  simp [(· ≤ ·), LB.ble]

@[simp] theorem LB.fin_lt_fin {x y : ℤ} : LB.fin x < LB.fin y ↔ x < y := by
  rw [lt_iff_le_not_le, LB.fin_le_fin, LB.fin_le_fin]
  omega

@[simp] theorem LB.bot_lt_fin {x : ℤ} : LB.bot < LB.fin x := by
  rw [lt_iff_le_not_le]
  simp

@[simp] theorem LB.fin_lt_top {x : ℤ} : LB.fin x < LB.top := by
  rw [lt_iff_le_not_le]
  simp

@[simp] theorem LB.bot_lt_top : LB.bot < LB.top := by
  rw [lt_iff_le_not_le]
  simp

@[simp] theorem LB.not_lt_bot (a : LB) : ¬ a < LB.bot := by
  rw [lt_iff_le_not_le]
  simp

@[simp] theorem LB.not_top_lt (a : LB) : ¬ LB.top < a := by
  rw [lt_iff_le_not_le]
  cases a <;> simp

@[simp] theorem LB.not_fin_lt_bot {x : ℤ} : ¬ LB.fin x < LB.bot := by
  simp

theorem LB.lt_fin_imp_le {a : LB} {k : ℤ} (h : a < LB.fin k) :
    a ≤ LB.fin (k - 1) := by
  cases a with
  | bot => simp
  | top => exact absurd h (LB.not_top_lt _)
  | fin m => rw [LB.fin_lt_fin] at h; rw [LB.fin_le_fin]; omega

theorem LB.fin_lt_imp_le {a : LB} {k : ℤ} (h : LB.fin k < a) :
    LB.fin (k + 1) ≤ a := by
  cases a with
  | bot => exact absurd h (LB.not_lt_bot _)
  | top => simp
  | fin m => rw [LB.fin_lt_fin] at h; rw [LB.fin_le_fin]; omega

/-! ## The bound model

`Bound` is `core::ops::Bound` specialised to integer keys.  The position
specific orders on start and end bounds and the adjacency helpers
`before`/`after` live in the crate's `bounds.rs`, which is not among the
given sources; they are modelled from the specification (§3, §4.1). -/

/-- Endpoint descriptor: `core::ops::Bound<T>` with `T` embedded as `ℤ`. -/
inductive Bound where
  | unbounded : Bound
  | included (x : ℤ) : Bound
  | excluded (x : ℤ) : Bound
deriving DecidableEq, Repr

/-- The wrapped value of a bound, if it is bounded (`StartBound::value` /
`EndBound::value`). -/
def Bound.value : Bound → Option ℤ
  | .unbounded => none
  | .included x => some x
  | .excluded x => some x

/-- Embeds `Ord::cmp` on integer keys. -/
def cmpInt (a b : ℤ) : Ordering :=
  if a < b then .lt else if a = b then .eq else .gt

/-- Modelled from the spec: the `StartBound` total order of §3 — Unbounded
is least; bounds compare by value; at an equal value `Included x` comes
before `Excluded x`. -/
def startCmp : Bound → Bound → Ordering
  | .unbounded, .unbounded => .eq
  | .unbounded, _ => .lt
  | _, .unbounded => .gt
  | .included a, .included b => cmpInt a b
  | .excluded a, .excluded b => cmpInt a b
  | .included a, .excluded b => if a = b then .lt else cmpInt a b
  | .excluded a, .included b => if a = b then .gt else cmpInt a b

/-- Modelled from the spec: the `EndBound` total order of §3 — Unbounded is
greatest; bounds compare by value; at an equal value `Excluded x` comes
before `Included x`. -/
def endCmp : Bound → Bound → Ordering
  | .unbounded, .unbounded => .eq
  | .unbounded, _ => .gt
  | _, .unbounded => .lt
  | .included a, .included b => cmpInt a b
  | .excluded a, .excluded b => cmpInt a b
  | .included a, .excluded b => if a = b then .gt else cmpInt a b
  | .excluded a, .included b => if a = b then .lt else cmpInt a b

/-- Embeds `core::cmp::max` on start bounds (returns the second argument on ties,
as Rust's `Ord::max` does). -/
def startMax (a b : Bound) : Bound :=
  if startCmp b a = .lt then a else b

/-- Embeds `core::cmp::min` on end bounds (returns the first argument on ties, as
Rust's `Ord::min` does). -/
def endMin (a b : Bound) : Bound :=
  if endCmp b a = .lt then b else a

/-- Modelled from the spec (§4.1): `before(StartBound) -> Option<EndBound>`,
the end bound of the region immediately preceding a start bound. -/
def before : Bound → Option Bound
  | .unbounded => none
  | .included x => some (.excluded x)
  | .excluded x => some (.included x)

/-- Modelled from the spec (§4.1): `after(EndBound) -> Option<StartBound>`,
the start bound of the region immediately following an end bound. -/
def after : Bound → Option Bound
  | .unbounded => none
  | .included x => some (.excluded x)
  | .excluded x => some (.included x)

/-! ### Position encodings

A start bound and an end bound are mapped onto the line `LB` so that the
two `Ord` instances, overlap, touching and adjacency all become order
facts about `LB`.  Start bounds: `Included x ↦ 2x`, `Excluded x ↦ 2x+1`,
`Unbounded ↦ ⊥`.  End bounds: `Included x ↦ 2x`, `Excluded x ↦ 2x-1`,
`Unbounded ↦ ⊤`; `eEnc1` is the end encoding shifted up by one, which
turns zero-gap adjacency into equality. -/

/-- Encoding of a bound in start position. -/
def sEnc : Bound → LB
  | .unbounded => .bot
  | .included x => .fin (2 * x)
  | .excluded x => .fin (2 * x + 1)

/-- Encoding of a bound in end position. -/
def eEnc : Bound → LB
  | .unbounded => .top
  | .included x => .fin (2 * x)
  | .excluded x => .fin (2 * x - 1)

/-- End encoding shifted up by one (the first position after the end). -/
def eEnc1 : Bound → LB
  | .unbounded => .top
  | .included x => .fin (2 * x + 1)
  | .excluded x => .fin (2 * x)

theorem startCmp_lt_iff {a b : Bound} :
    startCmp a b = .lt ↔ sEnc a < sEnc b := by
  cases a <;> cases b <;>
    simp [startCmp, cmpInt, sEnc] <;> omega

theorem startCmp_eq_iff {a b : Bound} :
    startCmp a b = .eq ↔ a = b := by
  cases a <;> cases b <;>
    simp [startCmp, cmpInt] <;> omega

theorem endCmp_lt_iff {a b : Bound} :
    endCmp a b = .lt ↔ eEnc a < eEnc b := by
  cases a <;> cases b <;>
    simp [endCmp, cmpInt, eEnc] <;> omega

theorem endCmp_lt_iff1 {a b : Bound} :
    endCmp a b = .lt ↔ eEnc1 a < eEnc1 b := by
  cases a <;> cases b <;>
    simp [endCmp, cmpInt, eEnc1] <;> omega

theorem endCmp_eq_iff {a b : Bound} :
    endCmp a b = .eq ↔ a = b := by
  cases a <;> cases b <;>
    simp [endCmp, cmpInt] <;> omega

theorem startCmp_gt_iff {a b : Bound} :
    startCmp a b = .gt ↔ sEnc b < sEnc a := by
  cases a <;> cases b <;>
    simp [startCmp, cmpInt, sEnc] <;> omega

theorem endCmp_gt_iff {a b : Bound} :
    endCmp a b = .gt ↔ eEnc b < eEnc a := by
  cases a <;> cases b <;>
    simp [endCmp, cmpInt, eEnc] <;> omega

theorem endCmp_gt_iff1 {a b : Bound} :
    endCmp a b = .gt ↔ eEnc1 b < eEnc1 a := by
  cases a <;> cases b <;>
    simp [endCmp, cmpInt, eEnc1] <;> omega

theorem eEnc_le_eEnc1 (b : Bound) : eEnc b ≤ eEnc1 b := by
  cases b <;> simp [eEnc, eEnc1]

theorem sEnc_startMax (a b : Bound) :
    sEnc (startMax a b) = max (sEnc a) (sEnc b) := by
  unfold startMax
  rcases h : startCmp b a with _ | _ | _
  · rw [startCmp_lt_iff] at h
    simp [if_neg, max_eq_left h.le, h]
  · rw [startCmp_eq_iff] at h
    simp [h]
  · rw [startCmp_gt_iff] at h
    simp [max_eq_left h.le, max_eq_right h.le]

theorem eEnc_endMin (a b : Bound) :
    eEnc (endMin a b) = min (eEnc a) (eEnc b) := by
  unfold endMin
  rcases h : endCmp b a with _ | _ | _
  · rw [endCmp_lt_iff] at h
    simp [min_eq_right h.le]
  · rw [endCmp_eq_iff] at h
    simp [h]
  · rw [endCmp_gt_iff] at h
    simp [min_eq_left h.le]

theorem eEnc1_endMin (a b : Bound) :
    eEnc1 (endMin a b) = min (eEnc1 a) (eEnc1 b) := by
  unfold endMin
  rcases h : endCmp b a with _ | _ | _
  · rw [endCmp_lt_iff1] at h
    simp [min_eq_right h.le]
  · rw [endCmp_eq_iff] at h
    simp [h]
  · rw [endCmp_gt_iff1] at h
    simp [min_eq_left h.le]

theorem before_eq_none_iff {s : Bound} : before s = none ↔ s = .unbounded := by
  cases s <;> simp [before]

theorem after_eq_none_iff {e : Bound} : after e = none ↔ e = .unbounded := by
  cases e <;> simp [after]

theorem eEnc_before_lt {s b : Bound} (h : before s = some b) :
    eEnc b < sEnc s := by
  cases s <;> simp [before] at h <;> subst h <;> simp [eEnc, sEnc] <;> omega

theorem eEnc1_before {s b : Bound} (h : before s = some b) :
    eEnc1 b = sEnc s := by
  cases s <;> simp [before] at h <;> subst h <;> simp [eEnc1, sEnc]

theorem le_eEnc_before_iff {s b : Bound} (h : before s = some b) (z : LB) :
    z ≤ eEnc b ↔ z < sEnc s := by
  cases s <;> simp [before] at h <;> subst h <;>
    cases z <;> simp [eEnc, sEnc] <;> omega

theorem sEnc_after {e a : Bound} (h : after e = some a) :
    sEnc a = eEnc1 e := by
  cases e <;> simp [after] at h <;> subst h <;> simp [eEnc1, sEnc]

theorem eEnc_lt_after {e a : Bound} (h : after e = some a) :
    eEnc e < sEnc a := by
  cases e <;> simp [after] at h <;> subst h <;> simp [eEnc, sEnc] <;> omega

theorem after_le_iff {e a : Bound} (h : after e = some a) (z : LB) :
    sEnc a ≤ z ↔ eEnc e < z := by
  cases e <;> simp [after] at h <;> subst h <;>
    cases z <;> simp [eEnc, sEnc] <;> omega

theorem lt_eEnc1_imp_le_eEnc {z : LB} {b : Bound} (h : z < eEnc1 b) :
    z ≤ eEnc b := by
  cases b <;> cases z <;> simp_all [eEnc, eEnc1] <;> omega

theorem eEnc_lt_imp_eEnc1_le {z : LB} {b : Bound} (h : eEnc b < z) :
    eEnc1 b ≤ z := by
  cases b <;> cases z <;> simp_all [eEnc, eEnc1] <;> omega

theorem eEnc_le_iff_eEnc1_le {a b : Bound} : eEnc a ≤ eEnc b ↔ eEnc1 a ≤ eEnc1 b := by
  cases a <;> cases b <;> simp [eEnc, eEnc1] <;> omega

/-! ## `Range` (src/range.rs)

A monotonically increasing segment: a start bound and an end bound.  The
source's `end` field is named `stop` here because `end` is a Lean keyword. -/

/-- Embeds `Range<T>` of `src/range.rs` with `T = ℤ`. -/
structure Range where
  start : Bound
  stop : Bound
deriving DecidableEq, Repr

/-- The both-sides-bounded arm of the `match` in `Range::new`: coerce an
equal pair to the inclusive point, keep an increasing pair, flip a
backwards pair. -/
def Range.newBounded (s e : Bound) (sv ev : ℤ) : Range :=
  match cmpInt sv ev with
  | .eq => { start := .included sv, stop := .included ev }
  | .lt => { start := s, stop := e }
  | .gt => { start := e, stop := s }

/-- Embeds `Range::new` (src/range.rs:74-107): when both sides are bounded, an
equal pair is coerced to the inclusive point range and a backwards pair is
flipped; otherwise the bounds are kept as given. -/
def Range.new (s e : Bound) : Range :=
  match s, e with
  | .included sv, .included ev => Range.newBounded s e sv ev
  | .included sv, .excluded ev => Range.newBounded s e sv ev
  | .excluded sv, .included ev => Range.newBounded s e sv ev
  | .excluded sv, .excluded ev => Range.newBounded s e sv ev
  | _, _ => { start := s, stop := e }

/-- Embeds `Range::bound_before`: the end bound adjacent before this range's start. -/
def Range.bound_before (r : Range) : Option Bound :=
  before r.start

/-- Embeds `Range::bound_after`: the start bound adjacent after this range's end. -/
def Range.bound_after (r : Range) : Option Bound :=
  after r.stop

/-- Embeds `Range::overlaps` (src/range.rs:254-271): compare the maximum start
against the minimum end. -/
def Range.overlaps (a b : Range) : Bool :=
  match startMax a.start b.start, endMin a.stop b.stop with
  | .unbounded, _ => true
  | _, .unbounded => true
  | .included x, .included y => decide (x ≤ y)
  | .included x, .excluded y => decide (x < y)
  | .excluded x, .included y => decide (x < y)
  | .excluded x, .excluded y => decide (x < y)

/-- Embeds `Range::touches` (src/range.rs:277-296): like `overlaps` but also true
at exact adjacency, except between two excluded bounds. -/
def Range.touches (a b : Range) : Bool :=
  match startMax a.start b.start, endMin a.stop b.stop with
  | .unbounded, _ => true
  | _, .unbounded => true
  | .excluded x, .excluded y => decide (x < y)
  | .included x, .included y => decide (x ≤ y)
  | .included x, .excluded y => decide (x ≤ y)
  | .excluded x, .included y => decide (x ≤ y)

/-- Embeds `Range::shift` (src/range.rs:185-195): add the delta to each bounded
endpoint, embedded as returning the shifted range. -/
def Range.shift (r : Range) (d : ℤ) : Range :=
  { start :=
      match r.start with
      | .unbounded => .unbounded
      | .included x => .included (x + d)
      | .excluded x => .excluded (x + d),
    stop :=
      match r.stop with
      | .unbounded => .unbounded
      | .included x => .included (x + d)
      | .excluded x => .excluded (x + d) }

/-- Embeds `Range::shift_right` (src/range.rs:211-221): add the delta to each
bounded endpoint, embedded as returning the shifted range. -/
def Range.shift_right (r : Range) (d : ℤ) : Range :=
  { start :=
      match r.start with
      | .unbounded => .unbounded
      | .included x => .included (x + d)
      | .excluded x => .excluded (x + d),
    stop :=
      match r.stop with
      | .unbounded => .unbounded
      | .included x => .included (x + d)
      | .excluded x => .excluded (x + d) }

/-- Normal shape guaranteed by `Range::new`: value-increasing, and a
degenerate pair only in the inclusive-point form. -/
def Range.wf (r : Range) : Bool :=
  match r.start, r.stop with
  | .included x, .included y => decide (x ≤ y)
  | .included x, .excluded y => decide (x < y)
  | .excluded x, .included y => decide (x < y)
  | .excluded x, .excluded y => decide (x < y)
  | _, _ => true

/-- Start position of a range on the encoded line. -/
def rS (r : Range) : LB := sEnc r.start

/-- End position of a range on the encoded line. -/
def rE (r : Range) : LB := eEnc r.stop

/-- One past the end position of a range on the encoded line. -/
def rE1 (r : Range) : LB := eEnc1 r.stop

theorem wf_iff {r : Range} : r.wf = true ↔ rS r ≤ rE r := by
  rcases r with ⟨s, e⟩
  cases s <;> cases e <;>
    simp [Range.wf, rS, rE, sEnc, eEnc] <;> omega

theorem overlaps_iff {a b : Range} :
    a.overlaps b = true ↔ max (rS a) (rS b) ≤ min (rE a) (rE b) := by
  unfold Range.overlaps
  rw [rS, rS, rE, rE, ← sEnc_startMax, ← eEnc_endMin]
  rcases startMax a.start b.start with _ | x | x <;>
    rcases endMin a.stop b.stop with _ | y | y <;>
      simp [sEnc, eEnc] <;> omega

theorem touches_iff {a b : Range} :
    a.touches b = true ↔ max (rS a) (rS b) ≤ min (rE1 a) (rE1 b) := by
  unfold Range.touches
  rw [rS, rS, rE1, rE1, ← sEnc_startMax, ← eEnc1_endMin]
  rcases startMax a.start b.start with _ | x | x <;>
    rcases endMin a.stop b.stop with _ | y | y <;>
      simp [sEnc, eEnc1] <;> omega

theorem rE_le_rE1 (r : Range) : rE r ≤ rE1 r := eEnc_le_eEnc1 r.stop

/-- Overlap in cross form, assuming both ranges are well formed. -/
theorem overlaps_iff2 {a b : Range} (ha : a.wf = true) (hb : b.wf = true) :
    a.overlaps b = true ↔ rS a ≤ rE b ∧ rS b ≤ rE a := by
  rw [overlaps_iff, max_le_iff, le_min_iff, le_min_iff]
  rw [wf_iff] at ha hb
  constructor
  · rintro ⟨⟨-, h1⟩, ⟨h2, -⟩⟩
    exact ⟨h1, h2⟩
  · rintro ⟨h1, h2⟩
    exact ⟨⟨ha, h1⟩, ⟨h2, hb⟩⟩

/-- Touching in cross form, assuming both ranges are well formed. -/
theorem touches_iff2 {a b : Range} (ha : a.wf = true) (hb : b.wf = true) :
    a.touches b = true ↔ rS a ≤ rE1 b ∧ rS b ≤ rE1 a := by
  rw [touches_iff, max_le_iff, le_min_iff, le_min_iff]
  rw [wf_iff] at ha hb
  constructor
  · rintro ⟨⟨-, h1⟩, ⟨h2, -⟩⟩
    exact ⟨h1, h2⟩
  · rintro ⟨h1, h2⟩
    exact ⟨⟨le_trans ha (rE_le_rE1 a), h1⟩, ⟨h2, le_trans hb (rE_le_rE1 b)⟩⟩

theorem overlaps_imp_touches {a b : Range} (h : a.overlaps b = true) :
    a.touches b = true := by
  rw [overlaps_iff] at h
  rw [touches_iff]
  refine le_trans h (le_min ?_ ?_)
  · exact le_trans (min_le_left _ _) (rE_le_rE1 a)
  · exact le_trans (min_le_right _ _) (rE_le_rE1 b)

theorem overlaps_comm {a b : Range} : a.overlaps b = b.overlaps a := by
  rw [Bool.eq_iff_iff, overlaps_iff, overlaps_iff, max_comm, min_comm]

theorem touches_comm {a b : Range} : a.touches b = b.touches a := by
  rw [Bool.eq_iff_iff, touches_iff, touches_iff, max_comm, min_comm]

theorem new_wf (s e : Bound) : (Range.new s e).wf = true := by
  cases s <;> cases e <;>
    simp [Range.new, Range.newBounded, Range.wf, cmpInt] <;>
      split_ifs <;> simp [Range.wf] <;> omega

/-! ## Claims about `Range` -/

/-- Overlap as the specification words it (§4.2): take the maximum start
and the minimum end under the two orders; overlap holds if either extreme
is unbounded, if both are included and the values compare `<=`, or, in any
pairing involving an excluded bound, when the values compare `<`. -/
def overlapsSpec (a b : Range) : Prop :=
  let m := startMax a.start b.start
  let n := endMin a.stop b.stop
  m = .unbounded ∨ n = .unbounded ∨
    (∃ x y, m = .included x ∧ n = .included y ∧ x ≤ y) ∨
    (∃ x y, m.value = some x ∧ n.value = some y ∧
      ((∃ u, m = .excluded u) ∨ ∃ u, n = .excluded u) ∧ x < y)

/-- C5.  For every two ranges `a` and `b`, `a.overlaps(b)` holds if and
only if, taking `m = max(a.start, b.start)` under the `StartBound` order
and `n = min(a.end, b.end)` under the `EndBound` order: `m` or `n` is
Unbounded; or both are Included and `m`'s value `<=` `n`'s value; or, in
any pairing involving an Excluded bound, `m`'s value `<` `n`'s value. -/
theorem overlaps_matches_spec (a b : Range) :
    a.overlaps b = true ↔ overlapsSpec a b := by
  unfold Range.overlaps overlapsSpec
  rcases startMax a.start b.start with _ | x | x <;>
    rcases endMin a.stop b.stop with _ | y | y <;>
      simp [Bound.value] <;> omega

/-- Exact zero-gap adjacency as worded by claim C6: the maximum start and
the minimum end sit at an equal value and at least one of the two meeting
bounds is Included. -/
def adjacencySpec (a b : Range) : Prop :=
  let m := startMax a.start b.start
  let n := endMin a.stop b.stop
  ∃ x, m.value = some x ∧ n.value = some x ∧
    (m = .included x ∨ n = .included x)

/-- C6.  For every two ranges `a` and `b`, `a.touches(b)` holds whenever
`a.overlaps(b)` holds, and additionally at exact adjacency (maximum start
equal to minimum end with at least one of the two meeting bounds
Included), but not when both meeting bounds at the meeting point are
Excluded. -/
theorem touches_matches_spec (a b : Range) :
    (a.overlaps b = true → a.touches b = true) ∧
      (a.touches b = true ↔ a.overlaps b = true ∨ adjacencySpec a b) := by
  refine ⟨overlaps_imp_touches, ?_⟩
  unfold Range.touches Range.overlaps adjacencySpec
  rcases startMax a.start b.start with _ | x | x <;>
    rcases endMin a.stop b.stop with _ | y | y <;>
      simp [Bound.value] <;> omega

/-- Witness for C6 at concrete adjacent ranges `[1,3)` and `[3,5)`. -/
theorem touches_matches_spec_witness :
    (Range.mk (.included 1) (.excluded 3)).touches
      (Range.mk (.included 3) (.excluded 5)) = true :=
  (touches_matches_spec _ _).2.mpr (Or.inr (by
    refine ⟨3, ?_⟩
    simp [startMax, endMin, startCmp, endCmp, cmpInt, Bound.value]))

/-- C7.  `Range::new` normalizes: a both-sides-bounded backwards pair is
swapped so the range runs from the smaller to the larger value; a
degenerate pair at an equal value with at least one inclusive side
collapses to the inclusive point range; an input with an unbounded side is
kept exactly as given. -/
theorem range_new_normalizes (s e : Bound) :
    (∀ sv ev, s.value = some sv → e.value = some ev → ev < sv →
      Range.new s e = { start := e, stop := s }) ∧
    (∀ x, s.value = some x → e.value = some x →
      (s = .included x ∨ e = .included x) →
      Range.new s e = { start := .included x, stop := .included x }) ∧
    ((s = .unbounded ∨ e = .unbounded) →
      Range.new s e = { start := s, stop := e }) := by
  have hgt : ∀ a b : ℤ, b < a → cmpInt a b = .gt := by
    intro a b h
    simp [cmpInt] <;> omega
  have heq : ∀ a : ℤ, cmpInt a a = .eq := by
    intro a
    simp [cmpInt]
  refine ⟨?_, ?_, ?_⟩
  · intro sv ev hs he hlt
    cases s <;> cases e <;> simp [Bound.value] at hs he <;>
      subst hs <;> subst he <;>
        simp [Range.new, Range.newBounded, hgt _ _ hlt]
  · intro x hs he hinc
    cases s <;> cases e <;> simp [Bound.value] at hs he <;>
      subst hs <;> subst he <;>
        simp [Range.new, Range.newBounded, heq]
  · rcases s <;> rcases e <;> simp [Range.new] <;> rintro (h | h) <;>
      simp_all

/-- Witness for C7: the three normalization cases at concrete inputs —
`new(Included 5, Excluded 2)` swaps to `(2, 5]`, `new(Excluded 3,
Included 3)` collapses to `[3, 3]`, and `new(Unbounded, Included 7)` is
kept as given. -/
theorem range_new_normalizes_witness :
    Range.new (.included 5) (.excluded 2) =
        { start := .excluded 2, stop := .included 5 } ∧
      Range.new (.excluded 3) (.included 3) =
        { start := .included 3, stop := .included 3 } ∧
      Range.new .unbounded (.included 7) =
        { start := .unbounded, stop := .included 7 } :=
  ⟨(range_new_normalizes (.included 5) (.excluded 2)).1 5 2 rfl rfl (by decide),
    (range_new_normalizes (.excluded 3) (.included 3)).2.1 3 rfl rfl
      (Or.inr rfl),
    (range_new_normalizes .unbounded (.included 7)).2.2 (Or.inl rfl)⟩

/-- C2 (counter-evidence).  `Range::new` does not report a construction
failure on a pair of bounds both excluded at an equal value: it silently
coerces the pair to the inclusive point range, although its own doc
comment promises a panic for exactly this input. -/
theorem range_new_accepts_both_excluded (x : ℤ) :
    Range.new (.excluded x) (.excluded x) =
      { start := .included x, stop := .included x } := by
  simp [Range.new, Range.newBounded, cmpInt]

/-- C10.  `Range::shift(by)` and `Range::shift_right(by)` perform the
identical transformation — adding the delta to each bounded endpoint and
leaving unbounded sides untouched — so the two methods are extensionally
equal. -/
theorem shift_eq_shift_right (r : Range) (d : ℤ) :
    r.shift d = r.shift_right d := rfl

/-! ## Gap iteration (src/map/iterators.rs)

The map's entries are embedded as the list of `(range, value)` pairs in
the order the underlying B-tree iterator yields them: ascending by start
bound. -/

/-- Result of one call into iterator code that may hit an `expect` or a
`todo!`: either a panic or an ordinary value. -/
inductive PanicOr (α : Type) where
  | panicked : PanicOr α
  | ok (a : α) : PanicOr α
deriving DecidableEq, Repr

variable {V : Type}

/-- State of the `Gaps` iterator (src/map/iterators.rs:545-548): the
remaining entries of the underlying entry iterator, and the previously
visited range. -/
structure Gaps (V : Type) where
  iter : List (Range × V)
  prev : Option Range

/-- Embeds `Gaps::next` (src/map/iterators.rs:552-594).  The
`expect("Unbounded internal range in RangeMap")` calls are embedded as
`panicked`; `bound_after` returning `None` ends the iteration via `?`. -/
def Gaps.next : Gaps V → PanicOr (Option Range × Gaps V)
  | ⟨[], prev⟩ => .ok (none, ⟨[], prev⟩)
  | ⟨(next1, _) :: rest, some prev⟩ =>
    match after prev.stop with
    | none => .ok (none, ⟨rest, some prev⟩)
    | some s =>
      match before next1.start with
      | none => .panicked
      | some e => .ok (some ⟨s, e⟩, ⟨rest, some next1⟩)
  | ⟨(next1, _) :: rest, none⟩ =>
    match after next1.stop with
    | none => .ok (none, ⟨rest, none⟩)
    | some s =>
      match rest with
      | [] => .ok (none, ⟨[], none⟩)
      | (next2, _) :: rest2 =>
        match before next2.start with
        | none => .panicked
        | some e => .ok (some ⟨s, e⟩, ⟨rest2, some next2⟩)

/-- The value produced by the `n`-th call of `Gaps::next` (0-indexed),
propagating panics. -/
def Gaps.stream (g : Gaps V) : Nat → PanicOr (Option Range)
  | 0 =>
    match Gaps.next g with
    | .panicked => .panicked
    | .ok (o, _) => .ok o
  | n + 1 =>
    match Gaps.next g with
    | .panicked => .panicked
    | .ok (_, g2) => Gaps.stream g2 n

/-- The gap sequence as the specification words it (§4.5): for each
consecutive stored pair `(prev, next)` the range
`[after(prev.end), before(next.start)]`, the sequence ending when
`after(prev.end)` is `None`. -/
def gapsSpecAux : Range → List Range → List Range
  | _, [] => []
  | prev, next :: rest =>
    match after prev.stop with
    | none => []
    | some s =>
      match before next.start with
      | none => []
      | some e => { start := s, stop := e } :: gapsSpecAux next rest

/-- The gaps of a stored entry list: no gap before the first entry and
none after the last. -/
def gapsSpec : List Range → List Range
  | [] => []
  | first :: rest => gapsSpecAux first rest

/-- Every range in the chain `prev :: l` except possibly the last has a
bounded end. -/
def boundedStopsButLast : Range → List Range → Prop
  | _, [] => True
  | prev, next :: rest => after prev.stop ≠ none ∧ boundedStopsButLast next rest

/-- The whole-list form of `boundedStopsButLast`. -/
def boundedStopsChain : List Range → Prop
  | [] => True
  | first :: rest => boundedStopsButLast first rest

theorem stream_nil (p : Option Range) :
    ∀ n, Gaps.stream (⟨[], p⟩ : Gaps V) n = .ok none := by
  intro n
  induction n with
  | zero => simp [Gaps.stream, Gaps.next]
  | succ n ih => simp [Gaps.stream, Gaps.next, ih]

theorem gaps_stream_aux (l : List (Range × V)) (prev : Range)
    (h1 : ∀ e ∈ l, e.1.start ≠ Bound.unbounded)
    (h2 : boundedStopsButLast prev (l.map Prod.fst)) :
    ∀ n, Gaps.stream ⟨l, some prev⟩ n =
      .ok ((gapsSpecAux prev (l.map Prod.fst))[n]?) := by
  induction l generalizing prev with
  | nil =>
    intro n
    simp [stream_nil, gapsSpecAux]
  | cons hd tl ih =>
    rcases hd with ⟨next1, v1⟩
    rcases h2 with ⟨hb, h2'⟩
    rcases ha : after prev.stop with _ | s
    · exact absurd ha hb
    rcases hbefore : before next1.start with _ | e
    · exact absurd (before_eq_none_iff.mp hbefore)
        (h1 (next1, v1) (List.mem_cons_self _ _))
    intro n
    cases n with
    | zero =>
      simp [Gaps.stream, Gaps.next, ha, hbefore, gapsSpecAux]
    | succ n =>
      simp only [Gaps.stream, Gaps.next, ha, hbefore]
      rw [ih next1 (fun e he => h1 e (List.mem_cons_of_mem _ he)) h2' n]
      simp [gapsSpecAux, ha, hbefore]

theorem gaps_stream_main (l : List (Range × V))
    (h1 : ∀ e ∈ l.tail, e.1.start ≠ Bound.unbounded)
    (h2 : boundedStopsChain (l.map Prod.fst)) :
    ∀ n, Gaps.stream ⟨l, none⟩ n = .ok ((gapsSpec (l.map Prod.fst))[n]?) := by
  rcases l with _ | ⟨⟨first, v0⟩, rest⟩
  · intro n
    simp [stream_nil, gapsSpec]
  rcases rest with _ | ⟨⟨next2, v2⟩, rest2⟩
  · intro n
    rcases ha : after first.stop with _ | s
    · cases n <;> simp [Gaps.stream, Gaps.next, ha, gapsSpec, gapsSpecAux,
        stream_nil]
    · cases n <;> simp [Gaps.stream, Gaps.next, ha, gapsSpec, gapsSpecAux,
        stream_nil]
  rcases h2 with ⟨hb, h2'⟩
  rcases ha : after first.stop with _ | s
  · exact absurd ha hb
  rcases hbefore : before next2.start with _ | e
  · exact absurd (before_eq_none_iff.mp hbefore)
      (h1 (next2, v2) (List.mem_cons_self _ _))
  intro n
  cases n with
  | zero =>
    simp [Gaps.stream, Gaps.next, ha, hbefore, gapsSpec, gapsSpecAux]
  | succ n =>
    simp only [Gaps.stream, Gaps.next, ha, hbefore]
    rw [gaps_stream_aux rest2 next2
      (fun e he => h1 e (List.mem_cons_of_mem _ he)) h2' n]
    simp [gapsSpec, gapsSpecAux, ha, hbefore]

theorem sEnc_eq_bot_iff {b : Bound} : sEnc b = LB.bot ↔ b = .unbounded := by
  cases b <;> simp [sEnc]

/-- From sortedness and disjointness: every entry after the first has a
bounded start. -/
theorem tail_starts_bounded (l : List (Range × V))
    (hsort : l.Pairwise (fun a b => startCmp a.1.start b.1.start ≠ .gt))
    (hdisj : l.Pairwise (fun a b => a.1.overlaps b.1 = false)) :
    ∀ e ∈ l.tail, e.1.start ≠ Bound.unbounded := by
  rcases l with _ | ⟨a, t⟩
  · intro e he
    simp at he
  intro e he hu
  have hrel : startCmp a.1.start e.1.start ≠ .gt :=
    (List.pairwise_cons.mp hsort).1 e he
  have hov : a.1.overlaps e.1 = false :=
    (List.pairwise_cons.mp hdisj).1 e he
  rw [Ne, startCmp_gt_iff, hu] at hrel
  have ha : a.1.start = Bound.unbounded := by
    rcases hs : a.1.start with _ | x | x
    · rfl
    · rw [hs] at hrel
      simp [sEnc] at hrel
    · rw [hs] at hrel
      simp [sEnc] at hrel
  have : a.1.overlaps e.1 = true := by
    rw [overlaps_iff, rS, rS, ha, hu]
    simp [sEnc, max_self]
  rw [this] at hov
  exact absurd hov (by simp)

/-- From well-formedness, sortedness and disjointness: every entry except
the last has a bounded end. -/
theorem chain_of_sorted (l : List (Range × V))
    (hwf : ∀ e ∈ l, e.1.wf = true)
    (hsort : l.Pairwise (fun a b => startCmp a.1.start b.1.start ≠ .gt))
    (hdisj : l.Pairwise (fun a b => a.1.overlaps b.1 = false)) :
    boundedStopsChain (l.map Prod.fst) := by
  induction l with
  | nil => trivial
  | cons a t ih =>
    rcases t with _ | ⟨b, t2⟩
    · trivial
    refine ⟨?_, ?_⟩
    · intro hafter
      have hu : a.1.stop = Bound.unbounded := after_eq_none_iff.mp hafter
      have hrel : startCmp a.1.start b.1.start ≠ .gt :=
        (List.pairwise_cons.mp hsort).1 b (List.mem_cons_self _ _)
      have hov : a.1.overlaps b.1 = false :=
        (List.pairwise_cons.mp hdisj).1 b (List.mem_cons_self _ _)
      have hsb : rS a.1 ≤ rS b.1 := by
        rw [Ne, startCmp_gt_iff] at hrel
        exact le_of_not_lt hrel
      have hwfb : rS b.1 ≤ rE b.1 :=
        wf_iff.mp (hwf b (List.mem_cons_of_mem _ (List.mem_cons_self _ _)))
      have hEa : rE a.1 = LB.top := by
        rw [rE, hu]
        rfl
      have : a.1.overlaps b.1 = true := by
        rw [overlaps_iff, hEa]
        refine max_le (le_min ?_ ?_) (le_min ?_ ?_)
        · simp
        · exact le_trans hsb hwfb
        · simp
        · exact hwfb
      rw [this] at hov
      exact absurd hov (by simp)
    · have := ih (fun e he => hwf e (List.mem_cons_of_mem _ he))
        (List.pairwise_cons.mp hsort).2 (List.pairwise_cons.mp hdisj).2
      simpa [boundedStopsChain] using this

/-- C4.  For every map (entries well formed, ascending by start bound and
pairwise non-overlapping, as the map maintains them), the `n`-th call of
`gaps()` yields exactly the `n`-th element of the sequence that contains,
for each consecutive stored pair `(prev, next)`, the range
`[after(prev.end), before(next.start)]` — so no gap before the first
entry, none after the last, an empty remainder once `after(prev.end)` is
`None`, and `None` from every call past exhaustion (fused). -/
theorem gaps_yields_consecutive (l : List (Range × V))
    (hwf : ∀ e ∈ l, e.1.wf = true)
    (hsort : l.Pairwise (fun a b => startCmp a.1.start b.1.start ≠ .gt))
    (hdisj : l.Pairwise (fun a b => a.1.overlaps b.1 = false)) :
    ∀ n, Gaps.stream ⟨l, none⟩ n = .ok ((gapsSpec (l.map Prod.fst))[n]?) :=
  gaps_stream_main l (tail_starts_bounded l hsort hdisj)
    (chain_of_sorted l hwf hsort hdisj)

/-- Witness for C4: stored entries `[2,5)` and `[6,9)` — the first call
yields `[5,6)`, the second and third calls yield nothing (fused). -/
theorem gaps_yields_consecutive_witness :
    (Gaps.stream ⟨[({ start := .included 2, stop := .excluded 5 }, true),
        ({ start := .included 6, stop := .excluded 9 }, true)], none⟩ 0 =
      .ok ((gapsSpec [{ start := .included 2, stop := .excluded 5 },
        { start := .included 6, stop := .excluded 9 }])[0]?)) ∧
    gapsSpec [{ start := .included 2, stop := .excluded 5 },
        { start := .included 6, stop := .excluded 9 }] =
      [{ start := .included 5, stop := .excluded 6 }] ∧
    Gaps.stream ⟨[({ start := .included 2, stop := .excluded 5 }, true),
        ({ start := .included 6, stop := .excluded 9 }, true)], none⟩ 1 =
      .ok none ∧
    Gaps.stream ⟨[({ start := .included 2, stop := .excluded 5 }, true),
        ({ start := .included 6, stop := .excluded 9 }, true)], none⟩ 2 =
      .ok none := by
  refine ⟨?_, by decide, ?_, ?_⟩
  · exact gaps_yields_consecutive _ (by decide) (by decide) (by decide) 0
  · have := gaps_yields_consecutive
      [({ start := .included 2, stop := .excluded 5 }, true),
        ({ start := .included 6, stop := .excluded 9 }, true)]
      (by decide) (by decide) (by decide) 1
    rw [this]
    decide
  · have := gaps_yields_consecutive
      [({ start := .included 2, stop := .excluded 5 }, true),
        ({ start := .included 6, stop := .excluded 9 }, true)]
      (by decide) (by decide) (by decide) 2
    rw [this]
    decide

/-- No start bound that the next call of `Gaps::next` may feed to
`bound_before` is unbounded. -/
def noPanicInv : Gaps V → Prop
  | ⟨iter, none⟩ => ∀ e ∈ iter.tail, e.1.start ≠ Bound.unbounded
  | ⟨iter, some _⟩ => ∀ e ∈ iter, e.1.start ≠ Bound.unbounded

theorem next_no_panic {g : Gaps V} (h : noPanicInv g) :
    Gaps.next g ≠ .panicked := by
  rcases g with ⟨_ | ⟨⟨next1, v1⟩, rest⟩, _ | prev⟩
  · simp [Gaps.next]
  · simp [Gaps.next]
  · rcases ha : after next1.stop with _ | s
    · simp [Gaps.next, ha]
    rcases rest with _ | ⟨⟨next2, v2⟩, rest2⟩
    · simp [Gaps.next, ha]
    rcases hbefore : before next2.start with _ | e
    · exact absurd (before_eq_none_iff.mp hbefore)
        (h (next2, v2) (by simp))
    · simp [Gaps.next, ha, hbefore]
  · rcases ha : after prev.stop with _ | s
    · simp [Gaps.next, ha]
    rcases hbefore : before next1.start with _ | e
    · exact absurd (before_eq_none_iff.mp hbefore)
        (h (next1, v1) (by simp))
    · simp [Gaps.next, ha, hbefore]

theorem next_preserves_inv {g g2 : Gaps V} {o : Option Range}
    (h : noPanicInv g) (hstep : Gaps.next g = .ok (o, g2)) :
    noPanicInv g2 := by
  rcases g with ⟨_ | ⟨⟨next1, v1⟩, rest⟩, _ | prev⟩
  · simp [Gaps.next] at hstep
    rcases hstep with ⟨-, h2⟩
    rw [← h2]
    exact h
  · simp [Gaps.next] at hstep
    rcases hstep with ⟨-, h2⟩
    rw [← h2]
    exact h
  · rcases ha : after next1.stop with _ | s
    · simp [Gaps.next, ha] at hstep
      rcases hstep with ⟨-, h2⟩
      rw [← h2]
      intro e he
      exact h e (List.mem_of_mem_tail he)
    rcases rest with _ | ⟨⟨next2, v2⟩, rest2⟩
    · simp [Gaps.next, ha] at hstep
      rcases hstep with ⟨-, h2⟩
      rw [← h2]
      intro e he
      simp at he
    rcases hbefore : before next2.start with _ | e
    · simp [Gaps.next, ha, hbefore] at hstep
    · simp [Gaps.next, ha, hbefore] at hstep
      rcases hstep with ⟨-, h2⟩
      rw [← h2]
      intro e he
      exact h e (by simp [List.mem_cons_of_mem, he])
  · rcases ha : after prev.stop with _ | s
    · simp [Gaps.next, ha] at hstep
      rcases hstep with ⟨-, h2⟩
      rw [← h2]
      intro e he
      exact h e (List.mem_cons_of_mem _ he)
    rcases hbefore : before next1.start with _ | e
    · simp [Gaps.next, ha, hbefore] at hstep
    · simp [Gaps.next, ha, hbefore] at hstep
      rcases hstep with ⟨-, h2⟩
      rw [← h2]
      intro e he
      exact h e (List.mem_cons_of_mem _ he)

theorem stream_no_panic (n : Nat) :
    ∀ g : Gaps V, noPanicInv g → Gaps.stream g n ≠ .panicked := by
  induction n with
  | zero =>
    intro g hg
    rcases hstep : Gaps.next g with _ | ⟨o, g2⟩
    · exact absurd hstep (next_no_panic hg)
    · simp [Gaps.stream, hstep]
  | succ n ih =>
    intro g hg
    rcases hstep : Gaps.next g with _ | ⟨o, g2⟩
    · exact absurd hstep (next_no_panic hg)
    · simp only [Gaps.stream, hstep]
      exact ih g2 (next_preserves_inv hg hstep)

/-- C9.  For every map reachable through the public interface — so that
every stored entry other than the first has a bounded start bound — the
`expect("Unbounded internal range in RangeMap")` branches of `Gaps::next`
are unreachable: iterating `gaps()` for any number of calls never
panics. -/
theorem gaps_never_panics (l : List (Range × V))
    (h1 : ∀ e ∈ l.tail, e.1.start ≠ Bound.unbounded) :
    ∀ n, Gaps.stream ⟨l, none⟩ n ≠ .panicked :=
  fun n => stream_no_panic n ⟨l, none⟩ (by
    rcases l with _ | ⟨a, t⟩
    · intro e he
      simp at he
    · exact h1)

/-- Witness for C9 at the two-entry map `[2,5) ↦ true, [6,9) ↦ true`. -/
theorem gaps_never_panics_witness :
    Gaps.stream ⟨[({ start := .included 2, stop := .excluded 5 }, true),
        ({ start := .included 6, stop := .excluded 9 }, true)], none⟩ 1 ≠
      .panicked :=
  gaps_never_panics _ (by decide) 1

/-- State of the `GapsIn` iterator (src/map/iterators.rs:598-602): the
remaining entries, the previously visited range, and the caller-supplied
outer bounds. -/
structure GapsIn (V : Type) where
  iter : List (Range × V)
  prev : Option Range
  bounds : Range

/-- Embeds `GapsIn::next` (src/map/iterators.rs:606-652): the body is
`todo!()`, which panics unconditionally on every call. -/
def GapsIn.next (_ : GapsIn V) : PanicOr (Option Range × GapsIn V) :=
  .panicked

/-- C3 (counter-evidence).  `gaps_in` cannot yield the uncovered
intervals clipped to the outer range: every call of `GapsIn::next`
panics, because the body of the iterator is an unimplemented `todo!()`. -/
theorem gapsIn_next_panics (g : GapsIn V) : GapsIn.next g = .panicked :=
  rfl

/-! ## Mutation engine

`RangeMap::insert` and `RangeMap::remove` live in the crate's `map.rs`,
which is not among the given sources; the algorithms below are modelled
from the specification (§4.4).  The map is embedded as its entry list;
the partition invariant claims are order-free, so no sortedness is
imposed on the list. -/

variable [DecidableEq V]

/-- Concatenation of the images of a list under a list-valued function
(`Iterator::flat_map`). -/
def flatten2 {α β : Type} (f : α → List β) : List α → List β
  | [] => []
  | a :: l => f a ++ flatten2 f l

/-- Modelled from the spec (§4.4 step 2): a stored entry participates in
an insertion when it overlaps the inserted range, or touches it and
carries an equal value. -/
def participating (r : Range) (v : V) (e : Range × V) : Bool :=
  e.1.overlaps r || (e.1.touches r && decide (e.2 = v))

/-- Modelled from the spec (§4.4 step 4 and remove step 2): the retained
portions of a stored entry strictly before and strictly after the range
`r`, using the §4.1 adjacency helpers. -/
def splitFrags (r : Range) (e : Range × V) : List (Range × V) :=
  (if startCmp e.1.start r.start = .lt then
    match before r.start with
    | some b => [({ start := e.1.start, stop := b }, e.2)]
    | none => []
  else []) ++
  (if endCmp e.1.stop r.stop = .gt then
    match after r.stop with
    | some a => [({ start := a, stop := e.1.stop }, e.2)]
    | none => []
  else [])

/-- Modelled from the spec (§4.4 step 4): a participating entry whose
value differs from the inserted value keeps its fragments outside the
inserted range; a same-value participant is absorbed whole. -/
def fragsOf (r : Range) (v : V) (e : Range × V) : List (Range × V) :=
  if e.2 = v then [] else splitFrags r e

/-- Modelled from the spec (§4.4 remove step 2): an entry overlapping the
removed range is replaced by its fragments outside it; any other entry is
kept unchanged. -/
def removeFragsOf (r : Range) (e : Range × V) : List (Range × V) :=
  if e.1.overlaps r then splitFrags r e else [e]

/-- Modelled from the spec (§4.4 step 5): the minimal start among the
same-value participants, seeded with the inserted range's start. -/
def spanStart (r : Range) (sv : List (Range × V)) : Bound :=
  sv.foldl
    (fun acc x => if startCmp x.1.start acc = .lt then x.1.start else acc)
    r.start

/-- Modelled from the spec (§4.4 step 5): the maximal end among the
same-value participants, seeded with the inserted range's end. -/
def spanStop (r : Range) (sv : List (Range × V)) : Bound :=
  sv.foldl
    (fun acc x => if endCmp x.1.stop acc = .gt then x.1.stop else acc)
    r.stop

/-- The participating entries of a map for an insertion. -/
def partsOf (m : List (Range × V)) (r : Range) (v : V) : List (Range × V) :=
  m.filter (participating r v)

/-- The participating entries that carry the inserted value. -/
def sameVal (m : List (Range × V)) (r : Range) (v : V) : List (Range × V) :=
  (partsOf m r v).filter (fun x => decide (x.2 = v))

/-- The coalesced span of an insertion (§4.4 step 5). -/
def theSpan (m : List (Range × V)) (r : Range) (v : V) : Range :=
  { start := spanStart r (sameVal m r v), stop := spanStop r (sameVal m r v) }

/-- Modelled from the spec (§4.4): `RangeMap::insert` — normalize, remove
every participating entry, retain the outside fragments of
differing-value participants, and insert the coalesced span. -/
def insertOp (m : List (Range × V)) (s e : Bound) (v : V) :
    List (Range × V) :=
  let r := Range.new s e
  m.filter (fun x => !(participating r v x)) ++
    flatten2 (fragsOf r v) (partsOf m r v) ++ [(theSpan m r v, v)]

/-- Modelled from the spec (§4.4): `RangeMap::remove` — normalize, then
shrink, split or delete every overlapping entry. -/
def removeOp (m : List (Range × V)) (s e : Bound) : List (Range × V) :=
  flatten2 (removeFragsOf (Range.new s e)) m

/-- A mutation of the public interface. -/
inductive Op (V : Type) where
  | insert (s e : Bound) (v : V) : Op V
  | remove (s e : Bound) : Op V

/-- Apply one mutation. -/
def applyOp (m : List (Range × V)) : Op V → List (Range × V)
  | .insert s e v => insertOp m s e v
  | .remove s e => removeOp m s e

/-- Apply a sequence of mutations to the initially empty map. -/
def applyOps (ops : List (Op V)) : List (Range × V) :=
  ops.foldl applyOp []

/-- The partition invariant on one pair of stored entries: the ranges do
not overlap, and if they touch with zero gap their values differ. -/
def goodPair (a b : Range × V) : Prop :=
  a.1.overlaps b.1 = false ∧ (a.1.touches b.1 = true → a.2 ≠ b.2)

/-- The map invariant: every stored range is well formed and every pair
of stored entries satisfies `goodPair`. -/
def Invariant (m : List (Range × V)) : Prop :=
  (∀ x ∈ m, x.1.wf = true) ∧ m.Pairwise goodPair

theorem goodPair_symm {a b : Range × V} (h : goodPair a b) : goodPair b a := by
  refine ⟨?_, ?_⟩
  · rw [overlaps_comm]
    exact h.1
  · intro ht hv
    rw [touches_comm] at ht
    exact h.2 ht hv.symm

theorem pairwise_mem_of_sym {α : Type} {R : α → α → Prop}
    (hsym : ∀ {x y}, R x y → R y x) :
    ∀ {l : List α}, l.Pairwise R →
      ∀ {a b}, a ∈ l → b ∈ l → a ≠ b → R a b := by
  intro l hl
  induction hl with
  | nil =>
    intro a b ha
    simp at ha
  | cons hhead _ ih =>
    intro a b ha hb hne
    rcases List.mem_cons.mp ha with rfl | ha'
    · rcases List.mem_cons.mp hb with rfl | hb'
      · exact absurd rfl hne
      · exact hhead b hb'
    · rcases List.mem_cons.mp hb with rfl | hb'
      · exact hsym (hhead a ha')
      · exact ih ha' hb' hne

theorem invariant_pairs {m : List (Range × V)} (hm : Invariant m)
    {a b : Range × V} (ha : a ∈ m) (hb : b ∈ m) (hne : a ≠ b) :
    goodPair a b :=
  pairwise_mem_of_sym (fun h => goodPair_symm h) hm.2 ha hb hne

theorem participating_false_iff {r : Range} {v : V} {e : Range × V} :
    participating r v e = false ↔
      e.1.overlaps r = false ∧ (e.1.touches r = true → e.2 ≠ v) := by
  unfold participating
  rcases h1 : e.1.overlaps r <;> rcases h2 : e.1.touches r <;> simp

theorem participating_touches {r : Range} {v : V} {e : Range × V}
    (h : participating r v e = true) : e.1.touches r = true := by
  unfold participating at h
  rcases h1 : e.1.overlaps r
  · rw [h1] at h
    simp at h
    exact h.1
  · exact overlaps_imp_touches h1

theorem participating_overlaps_of_ne {r : Range} {v : V} {e : Range × V}
    (h : participating r v e = true) (hne : e.2 ≠ v) :
    e.1.overlaps r = true := by
  unfold participating at h
  rcases h1 : e.1.overlaps r
  · rw [h1] at h
    simp at h
    exact absurd h.2 hne
  · rfl

/-! ### Fold lemmas for the coalesced span -/

theorem foldl_minStart_le (tl : List (Range × V)) :
    ∀ seed : Bound,
      sEnc (tl.foldl
        (fun acc x => if startCmp x.1.start acc = .lt then x.1.start else acc)
        seed) ≤ sEnc seed := by
  induction tl with
  | nil =>
    intro seed
    exact le_refl _
  | cons hd tl ih =>
    intro seed
    simp only [List.foldl_cons]
    refine le_trans (ih _) ?_
    split_ifs with hc
    · exact le_of_lt (startCmp_lt_iff.mp hc)
    · exact le_refl _

theorem foldl_minStart_cases (tl : List (Range × V)) :
    ∀ seed : Bound,
      (tl.foldl
        (fun acc x => if startCmp x.1.start acc = .lt then x.1.start else acc)
        seed) = seed ∨
      ∃ x ∈ tl,
        (tl.foldl
          (fun acc x => if startCmp x.1.start acc = .lt then x.1.start else acc)
          seed) = x.1.start := by
  induction tl with
  | nil =>
    intro seed
    exact Or.inl rfl
  | cons hd tl ih =>
    intro seed
    simp only [List.foldl_cons]
    rcases ih (if startCmp hd.1.start seed = .lt then hd.1.start else seed)
      with h | ⟨x, hx, hh⟩
    · rw [h]
      split_ifs with hc
      · exact Or.inr ⟨hd, List.mem_cons_self _ _, rfl⟩
      · exact Or.inl rfl
    · exact Or.inr ⟨x, List.mem_cons_of_mem _ hx, hh⟩

theorem foldl_maxStop_ge (tl : List (Range × V)) :
    ∀ seed : Bound,
      eEnc seed ≤ eEnc (tl.foldl
        (fun acc x => if endCmp x.1.stop acc = .gt then x.1.stop else acc)
        seed) := by
  induction tl with
  | nil =>
    intro seed
    exact le_refl _
  | cons hd tl ih =>
    intro seed
    simp only [List.foldl_cons]
    refine le_trans ?_ (ih _)
    split_ifs with hc
    · exact le_of_lt (endCmp_gt_iff.mp hc)
    · exact le_refl _

theorem foldl_maxStop_cases (tl : List (Range × V)) :
    ∀ seed : Bound,
      (tl.foldl
        (fun acc x => if endCmp x.1.stop acc = .gt then x.1.stop else acc)
        seed) = seed ∨
      ∃ x ∈ tl,
        (tl.foldl
          (fun acc x => if endCmp x.1.stop acc = .gt then x.1.stop else acc)
          seed) = x.1.stop := by
  induction tl with
  | nil =>
    intro seed
    exact Or.inl rfl
  | cons hd tl ih =>
    intro seed
    simp only [List.foldl_cons]
    rcases ih (if endCmp hd.1.stop seed = .gt then hd.1.stop else seed)
      with h | ⟨x, hx, hh⟩
    · rw [h]
      split_ifs with hc
      · exact Or.inr ⟨hd, List.mem_cons_self _ _, rfl⟩
      · exact Or.inl rfl
    · exact Or.inr ⟨x, List.mem_cons_of_mem _ hx, hh⟩

theorem sEnc_theSpan_le (m : List (Range × V)) (r : Range) (v : V) :
    sEnc (theSpan m r v).start ≤ sEnc r.start :=
  foldl_minStart_le (sameVal m r v) r.start

theorem eEnc_theSpan_ge (m : List (Range × V)) (r : Range) (v : V) :
    eEnc r.stop ≤ eEnc (theSpan m r v).stop :=
  foldl_maxStop_ge (sameVal m r v) r.stop

theorem theSpan_wf {m : List (Range × V)} {r : Range} (hwr : r.wf = true)
    (v : V) : (theSpan m r v).wf = true := by
  rw [wf_iff]
  rw [wf_iff] at hwr
  exact le_trans (sEnc_theSpan_le m r v)
    (le_trans hwr (eEnc_theSpan_ge m r v))

/-! ### Positional containment and monotonicity -/

/-- Containment: `f` lies positionally inside `g`. -/
def insideR (f g : Range) : Prop :=
  rS g ≤ rS f ∧ rE f ≤ rE g ∧ rE1 f ≤ rE1 g

theorem insideR_refl (f : Range) : insideR f f :=
  ⟨le_refl _, le_refl _, le_refl _⟩

theorem overlaps_mono_left {f g x : Range} (hin : insideR f g)
    (h : f.overlaps x = true) : g.overlaps x = true := by
  rw [overlaps_iff, max_le_iff, le_min_iff, le_min_iff] at h ⊢
  obtain ⟨⟨hff, hfx⟩, hxf, hxx⟩ := h
  obtain ⟨h1, h2, _⟩ := hin
  exact ⟨⟨le_trans h1 (le_trans hff h2), le_trans h1 hfx⟩,
    le_trans hxf h2, hxx⟩

theorem touches_mono_left {f g x : Range} (hin : insideR f g)
    (h : f.touches x = true) : g.touches x = true := by
  rw [touches_iff, max_le_iff, le_min_iff, le_min_iff] at h ⊢
  obtain ⟨⟨hff, hfx⟩, hxf, hxx⟩ := h
  obtain ⟨h1, _, h3⟩ := hin
  exact ⟨⟨le_trans h1 (le_trans hff h3), le_trans h1 hfx⟩,
    le_trans hxf h3, hxx⟩

theorem goodPair_mono_left {f x b : Range × V} (hin : insideR f.1 x.1)
    (hv : f.2 = x.2) (h : goodPair x b) : goodPair f b := by
  refine ⟨?_, ?_⟩
  · rcases hfb : f.1.overlaps b.1
    · rfl
    · exfalso
      have := overlaps_mono_left hin hfb
      rw [h.1] at this
      simp at this
  · intro ht
    rw [hv]
    exact h.2 (touches_mono_left hin ht)

theorem goodPair_mono_right {a f x : Range × V} (hin : insideR f.1 x.1)
    (hv : f.2 = x.2) (h : goodPair a x) : goodPair a f :=
  goodPair_symm (goodPair_mono_left hin hv (goodPair_symm h))

/-! ### Flattening lemmas -/

theorem flatten2_mem {α β : Type} {f : α → List β} {y : β} :
    ∀ {l : List α}, (y ∈ flatten2 f l ↔ ∃ a ∈ l, y ∈ f a) := by
  intro l
  induction l with
  | nil => simp [flatten2]
  | cons a t ih =>
    simp only [flatten2, List.mem_append, ih, List.mem_cons]
    constructor
    · rintro (h | ⟨x, hx, hy⟩)
      · exact ⟨a, Or.inl rfl, h⟩
      · exact ⟨x, Or.inr hx, hy⟩
    · rintro ⟨x, (rfl | hx), hy⟩
      · exact Or.inl hy
      · exact Or.inr ⟨x, hx, hy⟩

theorem flatten2_pairwise {α β : Type} {R : β → β → Prop} {f : α → List β} :
    ∀ {l : List α}, (∀ a ∈ l, (f a).Pairwise R) →
      l.Pairwise (fun a b => ∀ x ∈ f a, ∀ y ∈ f b, R x y) →
      (flatten2 f l).Pairwise R := by
  intro l
  induction l with
  | nil =>
    intro _ _
    exact List.Pairwise.nil
  | cons a t ih =>
    intro hall hp
    rw [show flatten2 f (a :: t) = f a ++ flatten2 f t from rfl,
      List.pairwise_append]
    refine ⟨hall a (List.mem_cons_self _ _),
      ih (fun b hb => hall b (List.mem_cons_of_mem _ hb))
        (List.pairwise_cons.mp hp).2, ?_⟩
    intro x hx y hy
    obtain ⟨b, hb, hyb⟩ := flatten2_mem.mp hy
    exact (List.pairwise_cons.mp hp).1 b hb x hx y hyb

theorem pairwise_imp_mem {α : Type} {R S : α → α → Prop} :
    ∀ {l : List α}, (∀ a ∈ l, ∀ b ∈ l, R a b → S a b) →
      l.Pairwise R → l.Pairwise S := by
  intro l
  induction l with
  | nil =>
    intro _ _
    exact List.Pairwise.nil
  | cons a t ih =>
    intro h hp
    rw [List.pairwise_cons] at hp ⊢
    refine ⟨fun b hb =>
      h a (List.mem_cons_self _ _) b (List.mem_cons_of_mem _ hb) (hp.1 b hb),
      ih (fun x hx y hy =>
        h x (List.mem_cons_of_mem _ hx) y (List.mem_cons_of_mem _ hy))
        hp.2⟩

/-! ### Fragment lemmas -/

theorem overlaps_components {a b : Range} (h : a.overlaps b = true) :
    rS a ≤ rE b ∧ rS b ≤ rE a := by
  rw [overlaps_iff, max_le_iff, le_min_iff, le_min_iff] at h
  exact ⟨h.1.2, h.2.1⟩

theorem touches_components {a b : Range} (h : a.touches b = true) :
    rS a ≤ rE1 b ∧ rS b ≤ rE1 a := by
  rw [touches_iff, max_le_iff, le_min_iff, le_min_iff] at h
  exact ⟨h.1.2, h.2.1⟩

theorem eEnc_lt_eEnc1 {b : Bound} (h : b ≠ .unbounded) :
    eEnc b < eEnc1 b := by
  cases b
  · exact absurd rfl h
  · simp only [eEnc, eEnc1, LB.fin_lt_fin]
    omega
  · simp only [eEnc, eEnc1, LB.fin_lt_fin]
    omega

theorem splitFrags_spec {r : Range} {e f : Range × V} (hwr : r.wf = true)
    (hov : e.1.overlaps r = true) (hf : f ∈ splitFrags r e) :
    f.2 = e.2 ∧ f.1.wf = true ∧ insideR f.1 e.1 ∧
      f.1.overlaps r = false := by
  obtain ⟨hc1, hc2⟩ := overlaps_components hov
  unfold splitFrags at hf
  rw [List.mem_append] at hf
  rcases hf with hf | hf
  · by_cases hc : startCmp e.1.start r.start = .lt
    case neg =>
      rw [if_neg hc] at hf
      simp at hf
    rw [if_pos hc] at hf
    rcases hb : before r.start with _ | b
    · rw [hb] at hf
      simp at hf
    rw [hb] at hf
    rw [List.mem_singleton] at hf
    subst hf
    have hlt : sEnc e.1.start < sEnc r.start := startCmp_lt_iff.mp hc
    have hblt : eEnc b < sEnc r.start := eEnc_before_lt hb
    refine ⟨rfl, ?_, ⟨le_refl _, ?_, ?_⟩, ?_⟩
    · rw [wf_iff]
      exact (le_eEnc_before_iff hb _).mpr hlt
    · exact le_of_lt (lt_of_lt_of_le hblt hc2)
    · rw [rE1]
      show eEnc1 b ≤ rE1 e.1
      rw [eEnc1_before hb]
      exact le_trans hc2 (rE_le_rE1 e.1)
    · rcases hfr : Range.overlaps { start := e.1.start, stop := b } r
      · rfl
      · exfalso
        have := (overlaps_components hfr).2
        exact absurd (lt_of_le_of_lt this hblt) (lt_irrefl _)
  · by_cases hc : endCmp e.1.stop r.stop = .gt
    case neg =>
      rw [if_neg hc] at hf
      simp at hf
    rw [if_pos hc] at hf
    rcases ha : after r.stop with _ | a
    · rw [ha] at hf
      simp at hf
    rw [ha] at hf
    rw [List.mem_singleton] at hf
    subst hf
    have hgt : eEnc r.stop < eEnc e.1.stop := endCmp_gt_iff.mp hc
    have halt : eEnc r.stop < sEnc a := eEnc_lt_after ha
    refine ⟨rfl, ?_, ⟨?_, le_refl _, le_refl _⟩, ?_⟩
    · rw [wf_iff]
      exact (after_le_iff ha _).mpr hgt
    · exact le_of_lt (lt_of_le_of_lt hc1 halt)
    · rcases hfr : Range.overlaps { start := a, stop := e.1.stop } r
      · rfl
      · exfalso
        have := (overlaps_components hfr).1
        exact absurd (lt_of_lt_of_le halt this) (lt_irrefl _)

theorem splitFrags_pairwise {r : Range} {e : Range × V} (hwr : r.wf = true) :
    (splitFrags r e).Pairwise goodPair := by
  unfold splitFrags
  by_cases hc1 : startCmp e.1.start r.start = .lt
  case neg =>
    rw [if_neg hc1, List.nil_append]
    by_cases hc2 : endCmp e.1.stop r.stop = .gt
    · rw [if_pos hc2]
      rcases ha : after r.stop with _ | a <;> simp
    · rw [if_neg hc2]
      simp
  rw [if_pos hc1]
  by_cases hc2 : endCmp e.1.stop r.stop = .gt
  case neg =>
    rw [if_neg hc2, List.append_nil]
    rcases hb : before r.start with _ | b <;> simp
  rw [if_pos hc2]
  rcases hb : before r.start with _ | b
  · rw [List.nil_append]
    rcases ha : after r.stop with _ | a <;> simp
  rcases ha : after r.stop with _ | a
  · simp
  simp only [List.cons_append, List.nil_append, List.pairwise_cons]
  refine ⟨?_, by simp⟩
  intro y hy
  rw [List.mem_singleton] at hy
  subst hy
  have hstop : r.stop ≠ .unbounded := by
    intro hu
    rw [hu] at ha
    simp [after] at ha
  have hkey : eEnc1 b < sEnc a := by
    rw [sEnc_after ha, eEnc1_before hb]
    exact lt_of_le_of_lt (wf_iff.mp hwr) (eEnc_lt_eEnc1 hstop)
  have ht : Range.touches { start := e.1.start, stop := b }
      { start := a, stop := e.1.stop } = false := by
    rcases hq : Range.touches { start := e.1.start, stop := b }
      { start := a, stop := e.1.stop }
    · rfl
    · exfalso
      have := (touches_components hq).2
      rw [rS, rE1] at this
      exact absurd (lt_of_le_of_lt this hkey) (lt_irrefl _)
  refine ⟨?_, ?_⟩
  · rcases ho : Range.overlaps { start := e.1.start, stop := b }
      { start := a, stop := e.1.stop }
    · rfl
    · exfalso
      have := overlaps_imp_touches ho
      rw [ht] at this
      simp at this
  · intro htr
    rw [ht] at htr
    simp at htr

theorem fragsOf_spec {r : Range} {v : V} {e f : Range × V}
    (hwr : r.wf = true) (hpart : participating r v e = true)
    (hf : f ∈ fragsOf r v e) :
    f.2 = e.2 ∧ e.2 ≠ v ∧ f.1.wf = true ∧ insideR f.1 e.1 ∧
      f.1.overlaps r = false := by
  unfold fragsOf at hf
  split_ifs at hf with hv
  · simp at hf
  · have hov := participating_overlaps_of_ne hpart hv
    have h := splitFrags_spec hwr hov hf
    exact ⟨h.1, hv, h.2.1, h.2.2.1, h.2.2.2⟩

theorem fragsOf_pairwise {r : Range} {v : V} {e : Range × V}
    (hwr : r.wf = true) : (fragsOf r v e).Pairwise goodPair := by
  unfold fragsOf
  split_ifs
  · exact List.Pairwise.nil
  · exact splitFrags_pairwise hwr

theorem removeFragsOf_spec {r : Range} {e f : Range × V} (hwr : r.wf = true)
    (hwe : e.1.wf = true) (hf : f ∈ removeFragsOf r e) :
    f.2 = e.2 ∧ f.1.wf = true ∧ insideR f.1 e.1 := by
  unfold removeFragsOf at hf
  split_ifs at hf with hov
  · have h := splitFrags_spec hwr hov hf
    exact ⟨h.1, h.2.1, h.2.2.1⟩
  · rw [List.mem_singleton] at hf
    subst hf
    exact ⟨rfl, hwe, insideR_refl _⟩

theorem removeFragsOf_pairwise {r : Range} {e : Range × V}
    (hwr : r.wf = true) : (removeFragsOf r e).Pairwise goodPair := by
  unfold removeFragsOf
  split_ifs
  · exact splitFrags_pairwise hwr
  · simp

/-! ### Span lemmas -/

theorem sameVal_mem {m : List (Range × V)} {r : Range} {v : V}
    {x : Range × V} (hx : x ∈ sameVal m r v) :
    x ∈ m ∧ participating r v x = true ∧ x.2 = v := by
  unfold sameVal partsOf at hx
  rw [List.mem_filter] at hx
  obtain ⟨hx1, hx2⟩ := hx
  rw [List.mem_filter] at hx1
  exact ⟨hx1.1, hx1.2, by simpa using hx2⟩

theorem theSpan_start_cases (m : List (Range × V)) (r : Range) (v : V) :
    (theSpan m r v).start = r.start ∨
      ∃ x ∈ sameVal m r v, (theSpan m r v).start = x.1.start :=
  foldl_minStart_cases (sameVal m r v) r.start

theorem theSpan_stop_cases (m : List (Range × V)) (r : Range) (v : V) :
    (theSpan m r v).stop = r.stop ∨
      ∃ x ∈ sameVal m r v, (theSpan m r v).stop = x.1.stop :=
  foldl_maxStop_cases (sameVal m r v) r.stop

/-- A well-formed range that overlaps neither the inserted range nor any
same-value participant cannot overlap the coalesced span. -/
theorem span_overlap_contra {m : List (Range × V)} (hm : Invariant m)
    {r : Range} (hwr : r.wf = true) {v : V} {f : Range}
    (hwf : f.wf = true) (hovr : f.overlaps r = false)
    (hall : ∀ x ∈ sameVal m r v, f.overlaps x.1 = false) :
    f.overlaps (theSpan m r v) = false := by
  rcases hq : f.overlaps (theSpan m r v)
  · rfl
  exfalso
  obtain ⟨q1, q2⟩ := overlaps_components hq
  have hnov : rE r < rS f ∨ rE f < rS r := by
    rcases le_or_lt (rS f) (rE r) with h | h
    · refine Or.inr (not_le.mp ?_)
      intro hh
      have := (overlaps_iff2 hwf hwr).mpr ⟨h, hh⟩
      rw [hovr] at this
      simp at this
    · exact Or.inl h
  rcases hnov with hR | hL
  · have hlt : rE r < rE (theSpan m r v) := lt_of_lt_of_le hR q1
    rcases theSpan_stop_cases m r v with hcase | ⟨x0, hx0, hcase⟩
    · simp only [rE] at hlt
      rw [hcase] at hlt
      exact absurd hlt (lt_irrefl _)
    · obtain ⟨hx0m, hx0p, _⟩ := sameVal_mem hx0
      have hwx0 : x0.1.wf = true := hm.1 x0 hx0m
      have ht2 : rS x0.1 ≤ rE1 r :=
        (touches_components (participating_touches hx0p)).1
      have hsx : rS x0.1 ≤ rE f :=
        le_trans ht2 (le_trans (eEnc_lt_imp_eEnc1_le hR) (wf_iff.mp hwf))
      have hef : rS f ≤ rE x0.1 := by
        rw [rE, ← hcase]
        exact q1
      have := (overlaps_iff2 hwf hwx0).mpr ⟨hef, hsx⟩
      rw [hall x0 hx0] at this
      simp at this
  · have hlt : rS (theSpan m r v) < sEnc r.start := lt_of_le_of_lt q2 hL
    rcases theSpan_start_cases m r v with hcase | ⟨x0, hx0, hcase⟩
    · simp only [rS] at hlt
      rw [hcase] at hlt
      exact absurd hlt (lt_irrefl _)
    · obtain ⟨hx0m, hx0p, _⟩ := sameVal_mem hx0
      have hwx0 : x0.1.wf = true := hm.1 x0 hx0m
      have ht2 : rS r ≤ rE1 x0.1 :=
        (touches_components (participating_touches hx0p)).2
      have hsx : rS x0.1 ≤ rE f := by
        rw [rS, ← hcase]
        exact q2
      have hef : rE f ≤ rE x0.1 :=
        lt_eEnc1_imp_le_eEnc (lt_of_lt_of_le hL ht2)
      have := (overlaps_iff2 hwf hwx0).mpr
        ⟨le_trans (wf_iff.mp hwf) hef, hsx⟩
      rw [hall x0 hx0] at this
      simp at this

/-- A well-formed range that touches neither the inserted range nor any
same-value participant cannot touch the coalesced span. -/
theorem span_touch_contra {m : List (Range × V)} (hm : Invariant m)
    {r : Range} (hwr : r.wf = true) {v : V} {f : Range}
    (hwf : f.wf = true) (htr : f.touches r = false)
    (hall : ∀ x ∈ sameVal m r v, f.touches x.1 = false) :
    f.touches (theSpan m r v) = false := by
  rcases hq : f.touches (theSpan m r v)
  · rfl
  exfalso
  obtain ⟨q1, q2⟩ := touches_components hq
  have hnt : rE1 r < rS f ∨ rE1 f < rS r := by
    rcases le_or_lt (rS f) (rE1 r) with h | h
    · refine Or.inr (not_le.mp ?_)
      intro hh
      have := (touches_iff2 hwf hwr).mpr ⟨h, hh⟩
      rw [htr] at this
      simp at this
    · exact Or.inl h
  rcases hnt with hR | hL
  · have hlt : rE1 r < rE1 (theSpan m r v) := lt_of_lt_of_le hR q1
    rcases theSpan_stop_cases m r v with hcase | ⟨x0, hx0, hcase⟩
    · simp only [rE1] at hlt
      rw [hcase] at hlt
      exact absurd hlt (lt_irrefl _)
    · obtain ⟨hx0m, hx0p, _⟩ := sameVal_mem hx0
      have hwx0 : x0.1.wf = true := hm.1 x0 hx0m
      have ht2 : rS x0.1 ≤ rE1 r :=
        (touches_components (participating_touches hx0p)).1
      have hsx : rS x0.1 ≤ rE1 f :=
        le_trans ht2 (le_trans (le_of_lt hR)
          (le_trans (wf_iff.mp hwf) (rE_le_rE1 f)))
      have hef : rS f ≤ rE1 x0.1 := by
        rw [rE1, ← hcase]
        exact q1
      have := (touches_iff2 hwf hwx0).mpr ⟨hef, hsx⟩
      rw [hall x0 hx0] at this
      simp at this
  · have hlt : rS (theSpan m r v) < sEnc r.start := lt_of_le_of_lt q2 hL
    rcases theSpan_start_cases m r v with hcase | ⟨x0, hx0, hcase⟩
    · simp only [rS] at hlt
      rw [hcase] at hlt
      exact absurd hlt (lt_irrefl _)
    · obtain ⟨hx0m, hx0p, _⟩ := sameVal_mem hx0
      have hwx0 : x0.1.wf = true := hm.1 x0 hx0m
      have ht2 : rS r ≤ rE1 x0.1 :=
        (touches_components (participating_touches hx0p)).2
      have hsx : rS x0.1 ≤ rE1 f := by
        rw [rS, ← hcase]
        exact q2
      have hef : rS f ≤ rE1 x0.1 :=
        le_trans (wf_iff.mp hwf)
          (le_trans (rE_le_rE1 f) (le_of_lt (lt_of_lt_of_le hL ht2)))
      have := (touches_iff2 hwf hwx0).mpr ⟨hef, hsx⟩
      rw [hall x0 hx0] at this
      simp at this

/-! ### Invariant preservation -/

theorem partsOf_mem {m : List (Range × V)} {r : Range} {v : V}
    {x : Range × V} (hx : x ∈ partsOf m r v) :
    x ∈ m ∧ participating r v x = true := by
  unfold partsOf at hx
  exact ⟨(List.mem_filter.mp hx).1, (List.mem_filter.mp hx).2⟩

theorem ne_of_participating {r : Range} {v : V} {a x : Range × V}
    (hna : participating r v a = false)
    (hxp : participating r v x = true) : a ≠ x := by
  intro heq
  rw [heq, hxp] at hna
  simp at hna

theorem insertOp_invariant (m : List (Range × V)) (hm : Invariant m)
    (s e : Bound) (v : V) : Invariant (insertOp m s e v) := by
  have hwr : (Range.new s e).wf = true := new_wf s e
  unfold insertOp
  set r := Range.new s e with hrdef
  have hrest_pw : (m.filter fun x => !(participating r v x)).Pairwise
      goodPair := hm.2.sublist (List.filter_sublist _)
  have hparts_pw : (partsOf m r v).Pairwise goodPair :=
    hm.2.sublist (List.filter_sublist _)
  have hrest_mem : ∀ a ∈ (m.filter fun x => !(participating r v x)),
      a ∈ m ∧ participating r v a = false := by
    intro a ha
    obtain ⟨h1, h2⟩ := List.mem_filter.mp ha
    exact ⟨h1, by simpa using h2⟩
  -- no overlap and value-respecting touching against the span,
  -- for any entry of m that does not participate
  have hspan_rest : ∀ a ∈ m, participating r v a = false →
      goodPair a (theSpan m r v, v) := by
    intro a ham hna
    obtain ⟨hov, htv⟩ := participating_false_iff.mp hna
    have hwa : a.1.wf = true := hm.1 a ham
    refine ⟨?_, ?_⟩
    · refine span_overlap_contra hm hwr hwa hov ?_
      intro x hx
      obtain ⟨hxm, hxp, _⟩ := sameVal_mem hx
      rcases hq : a.1.overlaps x.1
      · rfl
      · exfalso
        have hne := ne_of_participating hna hxp
        have := (invariant_pairs hm ham hxm hne).1
        rw [hq] at this
        simp at this
    · intro ht hav
      have htr : a.1.touches r = false := by
        rcases hq : a.1.touches r
        · rfl
        · exact absurd hav (htv hq)
      have hallt : ∀ x ∈ sameVal m r v, a.1.touches x.1 = false := by
        intro x hx
        obtain ⟨hxm, hxp, hxv⟩ := sameVal_mem hx
        rcases hq : a.1.touches x.1
        · rfl
        · exfalso
          have hne := ne_of_participating hna hxp
          exact (invariant_pairs hm ham hxm hne).2 hq (by rw [hav, hxv])
      have := span_touch_contra hm hwr hwa htr hallt
      rw [ht] at this
      simp at this
  -- fragments never overlap nor equal-touch the span
  have hspan_frag : ∀ b, ∀ x ∈ partsOf m r v, b ∈ fragsOf r v x →
      goodPair b (theSpan m r v, v) := by
    intro b x hx hb
    obtain ⟨hxm, hxp⟩ := partsOf_mem hx
    obtain ⟨hbv, hxv, hbwf, hbin, hbov⟩ := fragsOf_spec hwr hxp hb
    refine ⟨?_, ?_⟩
    · refine span_overlap_contra hm hwr hbwf hbov ?_
      intro x0 hx0
      obtain ⟨hx0m, hx0p, hx0v⟩ := sameVal_mem hx0
      rcases hq : b.1.overlaps x0.1
      · rfl
      · exfalso
        have hxx0 : x ≠ x0 := by
          intro heq
          rw [heq, hx0v] at hxv
          exact hxv rfl
        have := (invariant_pairs hm hxm hx0m hxx0).1
        rw [overlaps_mono_left hbin hq] at this
        simp at this
    · intro _ hbv2
      rw [hbv] at hbv2
      exact hxv hbv2
  constructor
  · intro x hx
    rw [List.mem_append, List.mem_append] at hx
    rcases hx with (hx | hx) | hx
    · exact hm.1 x (hrest_mem x hx).1
    · obtain ⟨a, ha, hxa⟩ := flatten2_mem.mp hx
      exact (fragsOf_spec hwr (partsOf_mem ha).2 hxa).2.2.1
    · rw [List.mem_singleton] at hx
      subst hx
      exact theSpan_wf hwr v
  · rw [List.pairwise_append, List.pairwise_append]
    refine ⟨⟨hrest_pw, ?_, ?_⟩, by simp, ?_⟩
    · -- fragments are pairwise good
      refine flatten2_pairwise (fun a _ => fragsOf_pairwise hwr) ?_
      refine pairwise_imp_mem ?_ hparts_pw
      intro a ha b hb hab x hxa y hyb
      obtain ⟨hxv, _, _, hxin, _⟩ := fragsOf_spec hwr (partsOf_mem ha).2 hxa
      obtain ⟨hyv, _, _, hyin, _⟩ := fragsOf_spec hwr (partsOf_mem hb).2 hyb
      exact goodPair_mono_left hxin hxv (goodPair_mono_right hyin hyv hab)
    · -- rest against fragments
      intro a ha b hb
      obtain ⟨ham, hna⟩ := hrest_mem a ha
      obtain ⟨x, hx, hbx⟩ := flatten2_mem.mp hb
      obtain ⟨hxm, hxp⟩ := partsOf_mem hx
      obtain ⟨hbv, _, _, hbin, _⟩ := fragsOf_spec hwr hxp hbx
      have hne := ne_of_participating hna hxp
      exact goodPair_mono_right hbin hbv (invariant_pairs hm ham hxm hne)
    · -- everything against the span
      intro a ha b hb
      rw [List.mem_singleton] at hb
      subst hb
      rw [List.mem_append] at ha
      rcases ha with ha | ha
      · obtain ⟨ham, hna⟩ := hrest_mem a ha
        exact hspan_rest a ham hna
      · obtain ⟨x, hx, hax⟩ := flatten2_mem.mp ha
        exact hspan_frag a x hx hax

theorem removeOp_invariant (m : List (Range × V)) (hm : Invariant m)
    (s e : Bound) : Invariant (removeOp m s e) := by
  have hwr : (Range.new s e).wf = true := new_wf s e
  unfold removeOp
  set r := Range.new s e with hrdef
  constructor
  · intro f hf
    obtain ⟨x, hx, hfx⟩ := flatten2_mem.mp hf
    exact (removeFragsOf_spec hwr (hm.1 x hx) hfx).2.1
  · refine flatten2_pairwise (fun a _ => removeFragsOf_pairwise hwr) ?_
    refine pairwise_imp_mem ?_ hm.2
    intro a ha b hb hab x hxa y hyb
    obtain ⟨hxv, _, hxin⟩ := removeFragsOf_spec hwr (hm.1 a ha) hxa
    obtain ⟨hyv, _, hyin⟩ := removeFragsOf_spec hwr (hm.1 b hb) hyb
    exact goodPair_mono_left hxin hxv (goodPair_mono_right hyin hyv hab)

theorem applyOp_invariant (m : List (Range × V)) (hm : Invariant m)
    (op : Op V) : Invariant (applyOp m op) := by
  cases op with
  | insert s e v => exact insertOp_invariant m hm s e v
  | remove s e => exact removeOp_invariant m hm s e

theorem foldl_invariant (ops : List (Op V)) :
    ∀ m, Invariant m → Invariant (ops.foldl applyOp m) := by
  induction ops with
  | nil =>
    intro m hm
    exact hm
  | cons op rest ih =>
    intro m hm
    exact ih (applyOp m op) (applyOp_invariant m hm op)

/-- C1.  For every sequence of insert and remove operations applied to an
initially empty map, after each operation the stored ranges are pairwise
non-overlapping and no two stored ranges that touch with zero gap carry
equal values. -/
theorem rangeMap_invariant (ops : List (Op V)) :
    (applyOps ops).Pairwise goodPair :=
  (foldl_invariant ops []
    ⟨fun x hx => absurd hx (List.not_mem_nil x), List.Pairwise.nil⟩).2

/-! ### Idempotence of insertion -/

theorem sEnc_inj {a b : Bound} (h : sEnc a = sEnc b) : a = b := by
  cases a <;> cases b <;> simp [sEnc] at h ⊢ <;> omega

theorem eEnc_inj {a b : Bound} (h : eEnc a = eEnc b) : a = b := by
  cases a <;> cases b <;> simp [eEnc] at h ⊢ <;> omega

theorem spanStart_singleton {r : Range} {x : Range × V}
    (h : sEnc x.1.start ≤ sEnc r.start) :
    spanStart r [x] = x.1.start := by
  unfold spanStart
  simp only [List.foldl_cons, List.foldl_nil]
  split_ifs with hc
  · rfl
  · have h2 : sEnc r.start ≤ sEnc x.1.start := by
      rcases lt_or_ge (sEnc x.1.start) (sEnc r.start) with hlt | hge
      · exact absurd (startCmp_lt_iff.mpr hlt) hc
      · exact hge
    exact sEnc_inj (le_antisymm h2 h)

theorem spanStop_singleton {r : Range} {x : Range × V}
    (h : eEnc r.stop ≤ eEnc x.1.stop) :
    spanStop r [x] = x.1.stop := by
  unfold spanStop
  simp only [List.foldl_cons, List.foldl_nil]
  split_ifs with hc
  · rfl
  · have h2 : eEnc x.1.stop ≤ eEnc r.stop := by
      rcases lt_or_ge (eEnc r.stop) (eEnc x.1.stop) with hlt | hge
      · exact absurd (endCmp_gt_iff.mpr hlt) hc
      · exact hge
    exact (eEnc_inj (le_antisymm h2 h)).symm

theorem insertOp_eq (m : List (Range × V)) (s e : Bound) (v : V) :
    insertOp m s e v =
      m.filter (fun x => !(participating (Range.new s e) v x)) ++
        flatten2 (fragsOf (Range.new s e) v) (partsOf m (Range.new s e) v) ++
        [(theSpan m (Range.new s e) v, v)] := rfl

/-- C8.  For every map state, range and value, applying `insert(r, v)`
twice in a row yields exactly the same map state as applying it once. -/
theorem insert_idempotent (m : List (Range × V)) (s e : Bound) (v : V) :
    insertOp (insertOp m s e v) s e v = insertOp m s e v := by
  have hwr : (Range.new s e).wf = true := new_wf s e
  rw [insertOp_eq m s e v, insertOp_eq]
  set r := Range.new s e with hrdef
  set rest := m.filter (fun x => !(participating r v x)) with hrest
  set frags := flatten2 (fragsOf r v) (partsOf m r v) with hfrags
  set sp := theSpan m r v with hsp
  have hrest_not : ∀ a ∈ rest, participating r v a = false := by
    intro a ha
    rw [hrest] at ha
    simpa using (List.mem_filter.mp ha).2
  have hfrag_not : ∀ b ∈ frags, participating r v b = false := by
    intro b hb
    rw [hfrags] at hb
    obtain ⟨x, hx, hbx⟩ := flatten2_mem.mp hb
    obtain ⟨hbv, hxv, _, _, hbov⟩ := fragsOf_spec hwr (partsOf_mem hx).2 hbx
    refine participating_false_iff.mpr ⟨hbov, fun _ => ?_⟩
    rw [hbv]
    exact hxv
  have hsp_wf : sp.wf = true := theSpan_wf hwr v
  have hsp_ov : sp.overlaps r = true := by
    refine (overlaps_iff2 hsp_wf hwr).mpr ⟨?_, ?_⟩
    · exact le_trans (sEnc_theSpan_le m r v) (wf_iff.mp hwr)
    · exact le_trans (wf_iff.mp hwr) (eEnc_theSpan_ge m r v)
  have hsp_part : participating r v (sp, v) = true := by
    unfold participating
    rw [hsp_ov]
    rfl
  have hm2_filter :
      (rest ++ frags ++ [(sp, v)]).filter
          (fun x => !(participating r v x)) = rest ++ frags := by
    rw [List.filter_append, List.filter_append]
    rw [List.filter_eq_self.mpr (by
      intro a ha
      simp [hrest_not a ha])]
    rw [List.filter_eq_self.mpr (by
      intro a ha
      simp [hfrag_not a ha])]
    simp [hsp_part]
  have hm2_parts :
      partsOf (rest ++ frags ++ [(sp, v)]) r v = [(sp, v)] := by
    unfold partsOf
    rw [List.filter_append, List.filter_append]
    rw [List.filter_eq_nil_iff.mpr (by
      intro a ha
      simp [hrest_not a ha])]
    rw [List.filter_eq_nil_iff.mpr (by
      intro a ha
      simp [hfrag_not a ha])]
    simp [hsp_part]
  have hm2_sameVal :
      sameVal (rest ++ frags ++ [(sp, v)]) r v = [(sp, v)] := by
    unfold sameVal
    rw [hm2_parts]
    simp
  have hm2_span : theSpan (rest ++ frags ++ [(sp, v)]) r v = sp := by
    unfold theSpan
    rw [hm2_sameVal]
    rw [spanStart_singleton (sEnc_theSpan_le m r v),
      spanStop_singleton (eEnc_theSpan_ge m r v)]
  rw [hm2_filter, hm2_parts, hm2_span]
  have hnofrags : flatten2 (fragsOf r v) [(sp, v)] = [] := by
    simp [flatten2, fragsOf]
  rw [hnofrags]
  simp

end SegMap
